import Mathlib

/-!
Verification development for the matrix-times-vector benchmark program
(`src/assign1/mXv.c`).

The program benchmarks five dense matrix-vector multiplication kernels
(sequential, OpenMP, MPI, OpenMP tiled, MPI tiled) over power-of-two sizes.
This file gives a shallow embedding of the kernels, the random fill, the
partition arithmetic and the benchmark driver, and proves or refutes the
specification's claims about them.

Modelling conventions:
* `double` values are modelled as exact rationals `ℚ`; floating-point
  rounding is not modelled, so "equal up to floating-point tolerance"
  becomes exact equality of the rational values.
* A kernel is a state transformer on `MState` (matrix, vector, result,
  each a total function on `Nat` indices).  C loops become folds over the
  exact index lists the loops traverse.  OpenMP `parallel for` regions are
  modelled by the same deterministic iteration: their loop bodies write
  row-disjoint result slots except for the tiled kernel, whose accumulation
  behaviour is captured by iterating the tile loop nest in program order.
* `MPI_Allgather(MPI_IN_PLACE, .., result, rows/size, ..)` is modelled as a
  pure function of the per-rank local result buffers: entry `k` of the
  gathered buffer comes from rank `k / (rows/size)`'s buffer when
  `k < (rows/size) * size`, and stays at the rank's own value otherwise.
* Uninitialised `malloc` contents (the result buffer the driver passes to
  the kernels) are modelled by universally quantifying over the initial
  `result` function.
-/

namespace MXV

/-- Contents of the C `double** matrix`: entry at (row, column). -/
abbrev Mat : Type := Nat → Nat → ℚ

/-- Contents of a C `double*` vector. -/
abbrev Vct : Type := Nat → ℚ

/-- The mutable state a kernel runs on: the matrix, the multiplicand vector
and the result buffer. -/
structure MState where
  matrix : Mat
  vector : Vct
  result : Vct

/-- The store `result[i] = x`. -/
def writeResult (s : MState) (i : Nat) (x : ℚ) : MState :=
  { s with result := Function.update s.result i x }

/-- The statement `result[ii] += matrix[ii][jj] * vector[jj]` for the index
pair `p = (ii, jj)`, reading matrix, vector and result from the current
state. -/
def accumPair (s : MState) (p : Nat × Nat) : MState :=
  writeResult s p.1 (s.result p.1 + s.matrix p.1 p.2 * s.vector p.2)

/-- Running the accumulation statement over a list of index pairs in
program order. -/
def accumList (l : List (Nat × Nat)) (s : MState) : MState :=
  l.foldl accumPair s

/-- The exact dot product of row `i` of `m` with `v` over columns
`0, …, n-1`; the value `result[i]` holds after the sequential kernel. -/
def dot (m : Mat) (v : Vct) (i n : Nat) : ℚ :=
  ((List.range n).map (fun j => m i j * v j)).sum

/-- The contribution a list of accumulation index pairs makes to
`result[k]` when matrix and vector are read from fixed `m` and `v`. -/
def contrib (m : Mat) (v : Vct) (k : Nat) (l : List (Nat × Nat)) : ℚ :=
  (l.map (fun p => if p.1 = k then m k p.2 * v p.2 else 0)).sum

/-- Index pairs `(i, j)` traversed by the inner loop
`for (j = 0; j < cols; j++)` of the naive kernels for a fixed row `i`. -/
def seqRowPairs (i cols : Nat) : List (Nat × Nat) :=
  (List.range cols).map (fun j => (i, j))

/-- One iteration of the outer loop of the naive kernels:
`result[i] = 0.0; for (j = 0; j < cols; j++) result[i] += …`. -/
def seqRow (s : MState) (i cols : Nat) : MState :=
  accumList (seqRowPairs i cols) (writeResult s i 0)

/-- The naive row loop over an explicit list of row indices. -/
def rowLoop (cols : Nat) (rows : List Nat) (s : MState) : MState :=
  rows.foldl (fun t i => seqRow t i cols) s

/-- `sequential_mvm` from `mXv.c`: rows `0, …, rows-1` in order, each row
zeroed and then accumulated. -/
def sequential_mvm (s : MState) (rows cols : Nat) : MState :=
  rowLoop cols (List.range rows) s

/-- `openmp_mvm` from `mXv.c`: the same loop nest under
`#pragma omp parallel for`; each iteration owns the disjoint slot
`result[i]`, so the parallel region is modelled by the iteration in row
order. -/
def openmp_mvm (s : MState) (rows cols : Nat) : MState :=
  rowLoop cols (List.range rows) s

/-- `start` of the row range computed by MPI rank `rank`:
`(rows / size) * rank` (C integer division). -/
def startRow (rows size rank : Nat) : Nat :=
  rows / size * rank

/-- `end` of the row range computed by MPI rank `rank`: `rows` for the last
rank and `(rows / size) * (rank + 1)` otherwise. -/
def endRow (rows size rank : Nat) : Nat :=
  if rank = size - 1 then rows else rows / size * (rank + 1)

/-- The list `a, a+1, …, b-1` traversed by `for (i = a; i < b; i++)`. -/
def rowRange (a b : Nat) : List Nat :=
  (List.range (b - a)).map (fun k => a + k)

/-- The local computation of `mpi_mvm` on one rank: the naive row loop
restricted to the rank's `[start, end)` row range. -/
def mpi_mvm_local (s : MState) (rows cols rank size : Nat) : MState :=
  rowLoop cols (rowRange (startRow rows size rank) (endRow rows size rank)) s

/-- `MPI_Allgather(MPI_IN_PLACE, 0, .., result, c, MPI_DOUBLE, ..)` over the
per-rank buffers `bufs`: entry `k < c * size` of every rank's buffer is
replaced by entry `k` of rank `k / c`'s buffer; entries beyond `c * size`
keep the rank's own value. -/
def allgatherResult (size c : Nat) (bufs : Nat → Vct) (p : Nat) : Vct :=
  fun k => if k < c * size then bufs (k / c) k else bufs p k

/-- `mpi_mvm` from `mXv.c` as a whole-collective function: every rank runs
the local row loop on its own state, then the all-gather with chunk size
`rows / size` combines the local result buffers.  `states r` is rank `r`'s
state on entry; the returned function gives rank `p`'s state on exit. -/
def mpi_mvm (states : Nat → MState) (rows cols size : Nat) : Nat → MState :=
  fun p =>
    { matrix := (mpi_mvm_local (states p) rows cols p size).matrix
      vector := (mpi_mvm_local (states p) rows cols p size).vector
      result := allgatherResult size (rows / size)
        (fun r => (mpi_mvm_local (states r) rows cols r size).result) p }

/-- Start offsets `a, a + t, a + 2t, …` of `for (i = a; i < b; i += t)`:
one start per loop iteration, `(b - a + t - 1) / t` iterations in all. -/
def stridedStarts (a b t : Nat) : List Nat :=
  (List.range ((b - a + t - 1) / t)).map (fun q => a + q * t)

/-- Index pairs `(ii, jj)` traversed by one tile body
`for (ii = i; ii < i + t; ii++) for (jj = j; jj < j + t; jj++)`. -/
def tilePairs (i j t : Nat) : List (Nat × Nat) :=
  (List.range t).flatMap (fun di => (List.range t).map (fun dj => (i + di, j + dj)))

/-- All index pairs traversed by the tiled loop nest of
`openmp_tiled_mvm`: row-tile starts, then column-tile starts, then the
tile body. -/
def tiledPairs (rows cols t : Nat) : List (Nat × Nat) :=
  (stridedStarts 0 rows t).flatMap
    (fun i => (stridedStarts 0 cols t).flatMap (fun j => tilePairs i j t))

/-- `openmp_tiled_mvm` from `mXv.c`: the tiled loop nest accumulating
`result[ii] += matrix[ii][jj] * vector[jj]`; note it never zeroes
`result`. -/
def openmp_tiled_mvm (s : MState) (rows cols tile_size : Nat) : MState :=
  accumList (tiledPairs rows cols tile_size) s

/-- All index pairs traversed by the tiled loop nest of `mpi_tiled_mvm` on
rank `rank`: row-tile starts from `start` while `< end`, full column-tile
sweep, then the tile body. -/
def mpiTiledPairs (rows cols rank size t : Nat) : List (Nat × Nat) :=
  (stridedStarts (startRow rows size rank) (endRow rows size rank) t).flatMap
    (fun i => (stridedStarts 0 cols t).flatMap (fun j => tilePairs i j t))

/-- The local computation of `mpi_tiled_mvm` on one rank. -/
def mpi_tiled_local (s : MState) (rows cols rank size tile_size : Nat) : MState :=
  accumList (mpiTiledPairs rows cols rank size tile_size) s

/-- `mpi_tiled_mvm` from `mXv.c` as a whole-collective function: tiled
local computation on each rank followed by the same all-gather as
`mpi_mvm`. -/
def mpi_tiled_mvm (states : Nat → MState) (rows cols size tile_size : Nat) :
    Nat → MState :=
  fun p =>
    { matrix := (mpi_tiled_local (states p) rows cols p size tile_size).matrix
      vector := (mpi_tiled_local (states p) rows cols p size tile_size).vector
      result := allgatherResult size (rows / size)
        (fun r => (mpi_tiled_local (states r) rows cols r size tile_size).result) p }

/-- The (row-tile, column-tile) iterations of the tiled loop nest of
`openmp_tiled_mvm` on an `n × n` problem. -/
def tileIters (n tile_size : Nat) : List (Nat × Nat) :=
  (stridedStarts 0 n tile_size).flatMap
    (fun a => (stridedStarts 0 n tile_size).map (fun b => (a, b)))

/-- `fill_random` from `mXv.c`: consumes the `rand()` stream `rng` (values
in `[0, randMax]`) row-major for the matrix and then for the vector, each
entry being `rand() / RAND_MAX`. -/
def fill_random (rng : Nat → Nat) (randMax rows cols : Nat) : Mat × Vct :=
  (fun i j => (rng (i * cols + j) : ℚ) / (randMax : ℚ),
   fun i => (rng (rows * cols + i) : ℚ) / (randMax : ℚ))

/-- A line written to `results.csv`: label, problem size, elapsed time. -/
abbrev TimingRecord : Type := String × Nat × ℚ

/-- The timing record the `switch` in `run_programs` writes for a given
menu choice (no record for a choice outside `1, …, 5`). -/
def recordsFor (choice N : Nat) (t : ℚ) : List TimingRecord :=
  match choice with
  | 1 => [("Sequential", N, t)]
  | 2 => [("OpenMP", N, t)]
  | 3 => [("MPI", N, t)]
  | 4 => [("OpenMP Tiled", N, t)]
  | 5 => [("MPI Tiled", N, t)]
  | _ => []

/-- `run_programs` from `mXv.c`, observed through its outputs: the stdout
messages and the timing records for one size.  `mo`, `vo`, `ro` are the
outcomes of the three allocations (in program order `matrix`, `vector`,
`result`); a failed allocation prints its message and the function returns
before any record is written. -/
def run_programs (choice N : Nat) (mo : Option Mat) (vo ro : Option Vct)
    (t : ℚ) : List String × List TimingRecord :=
  match mo with
  | none => (["Memory allocation failed!"], [])
  | some _ =>
    match vo with
    | none => (["Memory allocation failed!"], [])
    | some _ =>
      match ro with
      | none => (["Memory allocation failed!"], [])
      | some _ => ([], recordsFor choice N t)

/-- The problem sizes of the driver loop
`for (N = 64; N <= MAX_SIZE; N *= 2)` with `MAX_SIZE = 32768`. -/
def benchSizes : List Nat :=
  (List.range 10).map (fun k => 64 * 2 ^ k)

/-- The driver loop of `main`: one `run_programs` call per size, with the
per-size allocation outcomes `plan` and elapsed times `t`; collects all
messages and all timing records in order. -/
def benchRun (choice : Nat) (plan : Nat → Option Mat × Option Vct × Option Vct)
    (t : Nat → ℚ) : List String × List TimingRecord :=
  (((benchSizes.map (fun N =>
      run_programs choice N (plan N).1 (plan N).2.1 (plan N).2.2 (t N))).map
        Prod.fst).flatten,
   ((benchSizes.map (fun N =>
      run_programs choice N (plan N).1 (plan N).2.1 (plan N).2.2 (t N))).map
        Prod.snd).flatten)

/-- The selection loop of `main`:
`while (scanf_s("%d", &choice) != 1 || choice < 1 || choice > 5) …`.
The input stream is a list of read attempts, `none` for a non-numeric
token (a failed `scanf`), `some c` for a parsed integer; the loop skips
attempts until one parses to a value in `[1, 5]`, and `none` is returned
when the stream is exhausted (the C loop would keep waiting for input). -/
def selectChoice : List (Option Int) → Option Int
  | [] => none
  | none :: rest => selectChoice rest
  | some c :: rest => if 1 ≤ c ∧ c ≤ 5 then some c else selectChoice rest

/-- `main` after the menu, observed through its outputs: the accepted
choice selects the variant that `benchRun` benchmarks; `none` when the
input stream never yields a valid choice. -/
def mainOutput (stream : List (Option Int))
    (plan : Nat → Option Mat × Option Vct × Option Vct) (t : Nat → ℚ) :
    Option (List String × List TimingRecord) :=
  (selectChoice stream).map (fun c => benchRun c.toNat plan t)

/-! ### Effect of the accumulation statement -/

@[simp] lemma sum_map_zero {α : Type} (l : List α) :
    (l.map (fun _ => (0 : ℚ))).sum = 0 := by
  induction l with
  | nil => simp
  | cons a l ih => simp [ih]

@[simp] lemma writeResult_matrix (s : MState) (i : Nat) (x : ℚ) :
    (writeResult s i x).matrix = s.matrix := rfl

@[simp] lemma writeResult_vector (s : MState) (i : Nat) (x : ℚ) :
    (writeResult s i x).vector = s.vector := rfl

lemma writeResult_result (s : MState) (i : Nat) (x : ℚ) (k : Nat) :
    (writeResult s i x).result k = if k = i then x else s.result k := by
  simp [writeResult, Function.update_apply]

@[simp] lemma accumPair_matrix (s : MState) (p : Nat × Nat) :
    (accumPair s p).matrix = s.matrix := rfl

@[simp] lemma accumPair_vector (s : MState) (p : Nat × Nat) :
    (accumPair s p).vector = s.vector := rfl

lemma accumPair_result (s : MState) (p : Nat × Nat) (k : Nat) :
    (accumPair s p).result k
      = s.result k + (if p.1 = k then s.matrix k p.2 * s.vector p.2 else 0) := by
  by_cases h : k = p.1
  · subst h; simp [accumPair, writeResult, Function.update_apply]
  · simp [accumPair, writeResult, Function.update_apply, h, Ne.symm h]

lemma accumList_cons (p : Nat × Nat) (l : List (Nat × Nat)) (s : MState) :
    accumList (p :: l) s = accumList l (accumPair s p) := rfl

@[simp] lemma accumList_matrix (l : List (Nat × Nat)) :
    ∀ s : MState, (accumList l s).matrix = s.matrix := by
  induction l with
  | nil => intro s; rfl
  | cons p l ih => intro s; rw [accumList_cons, ih]; rfl

@[simp] lemma accumList_vector (l : List (Nat × Nat)) :
    ∀ s : MState, (accumList l s).vector = s.vector := by
  induction l with
  | nil => intro s; rfl
  | cons p l ih => intro s; rw [accumList_cons, ih]; rfl

lemma contrib_cons (m : Mat) (v : Vct) (k : Nat) (p : Nat × Nat)
    (l : List (Nat × Nat)) :
    contrib m v k (p :: l)
      = (if p.1 = k then m k p.2 * v p.2 else 0) + contrib m v k l := by
  simp [contrib]

lemma contrib_append (m : Mat) (v : Vct) (k : Nat) (l1 l2 : List (Nat × Nat)) :
    contrib m v k (l1 ++ l2) = contrib m v k l1 + contrib m v k l2 := by
  simp [contrib]

lemma contrib_flatMap {α : Type} (m : Mat) (v : Vct) (k : Nat) (L : List α)
    (f : α → List (Nat × Nat)) :
    contrib m v k (L.flatMap f) = (L.map (fun x => contrib m v k (f x))).sum := by
  induction L with
  | nil => simp [contrib]
  | cons a L ih => simp [List.flatMap_cons, contrib_append, ih]

lemma accumList_result (l : List (Nat × Nat)) :
    ∀ (s : MState) (k : Nat),
      (accumList l s).result k = s.result k + contrib s.matrix s.vector k l := by
  induction l with
  | nil => intro s k; simp [accumList, contrib]
  | cons p l ih =>
    intro s k
    rw [accumList_cons, ih, accumPair_matrix, accumPair_vector, accumPair_result,
      contrib_cons]
    ring

/-! ### The naive row loop -/

lemma contrib_seqRowPairs_self (m : Mat) (v : Vct) (i cols : Nat) :
    contrib m v i (seqRowPairs i cols) = dot m v i cols := by
  simp [contrib, seqRowPairs, List.map_map, dot, Function.comp_def]

lemma contrib_seqRowPairs_other (m : Mat) (v : Vct) (k i cols : Nat)
    (h : i ≠ k) : contrib m v k (seqRowPairs i cols) = 0 := by
  simp [contrib, seqRowPairs, List.map_map, Function.comp_def, h]

@[simp] lemma seqRow_matrix (s : MState) (i cols : Nat) :
    (seqRow s i cols).matrix = s.matrix := by
  simp [seqRow]

@[simp] lemma seqRow_vector (s : MState) (i cols : Nat) :
    (seqRow s i cols).vector = s.vector := by
  simp [seqRow]

lemma seqRow_result (s : MState) (i cols k : Nat) :
    (seqRow s i cols).result k
      = if k = i then dot s.matrix s.vector i cols else s.result k := by
  rw [seqRow, accumList_result]
  by_cases h : k = i
  · subst h
    simp [writeResult_result, contrib_seqRowPairs_self]
  · simp [writeResult_result, h, contrib_seqRowPairs_other _ _ _ _ _ (Ne.symm h)]

lemma rowLoop_cons (cols i : Nat) (L : List Nat) (s : MState) :
    rowLoop cols (i :: L) s = rowLoop cols L (seqRow s i cols) := rfl

@[simp] lemma rowLoop_matrix (cols : Nat) (L : List Nat) :
    ∀ s : MState, (rowLoop cols L s).matrix = s.matrix := by
  induction L with
  | nil => intro s; rfl
  | cons i L ih => intro s; rw [rowLoop_cons, ih]; simp

@[simp] lemma rowLoop_vector (cols : Nat) (L : List Nat) :
    ∀ s : MState, (rowLoop cols L s).vector = s.vector := by
  induction L with
  | nil => intro s; rfl
  | cons i L ih => intro s; rw [rowLoop_cons, ih]; simp

lemma rowLoop_result (cols : Nat) (L : List Nat) :
    ∀ (s : MState) (k : Nat),
      (rowLoop cols L s).result k
        = if k ∈ L then dot s.matrix s.vector k cols else s.result k := by
  induction L with
  | nil => intro s k; simp [rowLoop]
  | cons i L ih =>
    intro s k
    rw [rowLoop_cons, ih, seqRow_matrix, seqRow_vector, seqRow_result]
    by_cases h1 : k ∈ L
    · simp [h1, List.mem_cons]
    · by_cases h2 : k = i
      · subst h2; simp [h1, List.mem_cons]
      · simp [h1, h2, List.mem_cons]

lemma sequential_mvm_result (s : MState) (rows cols k : Nat) :
    (sequential_mvm s rows cols).result k
      = if k < rows then dot s.matrix s.vector k cols else s.result k := by
  rw [sequential_mvm, rowLoop_result]
  simp [List.mem_range]

lemma openmp_mvm_result (s : MState) (rows cols k : Nat) :
    (openmp_mvm s rows cols).result k
      = if k < rows then dot s.matrix s.vector k cols else s.result k := by
  rw [openmp_mvm, rowLoop_result]
  simp [List.mem_range]

/-! ### Strided loops and tile arithmetic -/

lemma mem_rowRange {x a b : Nat} : x ∈ rowRange a b ↔ a ≤ x ∧ x < b := by
  simp only [rowRange, List.mem_map, List.mem_range]
  constructor
  · rintro ⟨k, hk, rfl⟩; omega
  · intro h; exact ⟨x - a, by omega, by omega⟩

lemma mem_stridedStarts {x a b t : Nat} :
    x ∈ stridedStarts a b t
      ↔ ∃ q, q < (b - a + t - 1) / t ∧ x = a + q * t := by
  simp only [stridedStarts, List.mem_map, List.mem_range]
  constructor
  · rintro ⟨q, hq, rfl⟩; exact ⟨q, hq, rfl⟩
  · rintro ⟨q, hq, rfl⟩; exact ⟨q, hq, rfl⟩

lemma sum_ite_shift (c : ℚ) (a t k : Nat) :
    ((List.range t).map (fun d => if a + d = k then c else 0)).sum
      = if a ≤ k ∧ k < a + t then c else 0 := by
  induction t with
  | zero =>
    have h : ¬(a ≤ k ∧ k < a) := by omega
    simp [h]
  | succ t ih =>
    rw [List.range_succ, List.map_append, List.sum_append, ih]
    simp only [List.map_cons, List.map_nil, List.sum_cons, List.sum_nil]
    split_ifs <;> first
    | (exfalso; omega)
    | ring

lemma sum_ite_eq_range (c : ℚ) (n b0 : Nat) :
    ((List.range n).map (fun q => if q = b0 then c else 0)).sum
      = if b0 < n then c else 0 := by
  induction n with
  | zero => simp
  | succ n ih =>
    rw [List.range_succ, List.map_append, List.sum_append, ih]
    simp only [List.map_cons, List.map_nil, List.sum_cons, List.sum_nil]
    split_ifs <;> first
    | (exfalso; omega)
    | ring

lemma ceil_div_of_dvd {n t : Nat} (ht : 1 ≤ t) (hd : t ∣ n) :
    (n + t - 1) / t = n / t := by
  obtain ⟨q, rfl⟩ := hd
  have h0 : 0 < t := ht
  have h1 : t * q + t - 1 = t * q + (t - 1) := by omega
  rw [h1, Nat.mul_add_div h0, Nat.div_eq_of_lt (show t - 1 < t by omega),
    Nat.mul_div_cancel_left _ h0]
  omega

lemma ceil_mul_le {n t : Nat} (ht : 1 ≤ t) : n ≤ (n + t - 1) / t * t := by
  have h1 := Nat.div_add_mod (n + t - 1) t
  have h2 : (n + t - 1) % t < t := Nat.mod_lt _ (by omega)
  rw [Nat.mul_comm] at h1
  omega

lemma div_window_self {d t : Nat} (ht : 1 ≤ t) :
    d / t * t ≤ d ∧ d < d / t * t + t := by
  have h1 := Nat.div_add_mod d t
  have h2 : d % t < t := Nat.mod_lt _ (by omega)
  rw [Nat.mul_comm] at h1
  omega

lemma div_lt_ceil {a b t k : Nat} (ht : 1 ≤ t) (ha : a ≤ k) (hb : k < b) :
    (k - a) / t < (b - a + t - 1) / t := by
  have h0 : 0 < t := ht
  rw [Nat.div_lt_iff_lt_mul h0]
  have h1 := ceil_mul_le (n := b - a) ht
  omega

lemma window_eq_div {a t k q : Nat} (ht : 1 ≤ t) (h1 : a + q * t ≤ k)
    (h2 : k < a + q * t + t) : q = (k - a) / t := by
  have h3 : q * t ≤ k - a := by omega
  have h4 : k - a < (q + 1) * t := by
    have e : (q + 1) * t = q * t + t := by ring
    omega
  exact (Nat.div_eq_of_lt_le h3 h4).symm

lemma strided_window_sum (C : ℚ) {a b t k : Nat} (ht : 1 ≤ t) (ha : a ≤ k)
    (hb : k < b) :
    ((stridedStarts a b t).map
      (fun i => if i ≤ k ∧ k < i + t then C else 0)).sum = C := by
  rw [stridedStarts, List.map_map]
  have hcond : ∀ q : Nat,
      ((fun i => if i ≤ k ∧ k < i + t then C else 0) ∘ fun q => a + q * t) q
        = if q = (k - a) / t then C else 0 := by
    intro q
    simp only [Function.comp_def]
    by_cases h : a + q * t ≤ k ∧ k < a + q * t + t
    · rw [if_pos h, if_pos (window_eq_div ht h.1 h.2)]
    · have hq : q ≠ (k - a) / t := by
        intro he
        apply h
        subst he
        have hw := div_window_self (d := k - a) (t := t) ht
        omega
      rw [if_neg h, if_neg hq]
  rw [List.map_congr_left (fun q _ => hcond q), sum_ite_eq_range,
    if_pos (div_lt_ceil ht ha hb)]

lemma sum_blocks (g : Nat → ℚ) (q t : Nat) :
    ((List.range (q * t)).map g).sum
      = ((List.range q).map
          (fun b => ((List.range t).map (fun d => g (b * t + d))).sum)).sum := by
  induction q with
  | zero => simp
  | succ n ih =>
    have e : (n + 1) * t = n * t + t := by ring
    rw [e, List.range_add, List.map_append, List.sum_append, ih, List.range_succ,
      List.map_append, List.sum_append, List.map_map]
    simp only [List.map_cons, List.map_nil, List.sum_cons, List.sum_nil,
      Function.comp_def]
    ring

lemma strided_cols_sum (m : Mat) (v : Vct) (k N t : Nat) (ht : 1 ≤ t)
    (hd : t ∣ N) :
    ((stridedStarts 0 N t).map
      (fun j => ((List.range t).map
        (fun dj => m k (j + dj) * v (j + dj))).sum)).sum
      = dot m v k N := by
  have h0 : 0 < t := ht
  obtain ⟨q, hq⟩ := hd
  have hN : N = q * t := by rw [hq]; ring
  have hcount : (N - 0 + t - 1) / t = q := by
    rw [show N - 0 + t - 1 = N + t - 1 by omega, ceil_div_of_dvd ht ⟨q, hq⟩, hq,
      Nat.mul_div_cancel_left _ h0]
  rw [stridedStarts, List.map_map, hcount, dot, hN, sum_blocks]
  congr 1
  apply List.map_congr_left
  intro b _
  simp [Function.comp_def]

lemma contrib_tilePairs (m : Mat) (v : Vct) (k a b t : Nat) :
    contrib m v k (tilePairs a b t)
      = if a ≤ k ∧ k < a + t
        then ((List.range t).map (fun dj => m k (b + dj) * v (b + dj))).sum
        else 0 := by
  rw [tilePairs, contrib_flatMap]
  have hrow : ∀ di : Nat,
      contrib m v k ((List.range t).map (fun dj => (a + di, b + dj)))
        = if a + di = k
          then ((List.range t).map (fun dj => m k (b + dj) * v (b + dj))).sum
          else 0 := by
    intro di
    rw [contrib, List.map_map]
    by_cases h : a + di = k
    · rw [if_pos h]
      congr 1
      apply List.map_congr_left
      intro dj _
      simp [Function.comp_def, h]
    · rw [if_neg h]
      have hz : ∀ dj ∈ List.range t,
          ((fun p => if p.1 = k then m k p.2 * v p.2 else 0) ∘
            fun dj => (a + di, b + dj)) dj = (fun _ => (0:ℚ)) dj := by
        intro dj _
        simp [Function.comp_def, h]
      rw [List.map_congr_left hz, sum_map_zero]
  rw [List.map_congr_left (fun di _ => hrow di)]
  exact sum_ite_shift _ a t k

lemma contrib_rowStrip (m : Mat) (v : Vct) (k N t a0 b0 : Nat) (ht : 1 ≤ t)
    (hd : t ∣ N) (ha : a0 ≤ k) (hb : k < b0) :
    contrib m v k
      ((stridedStarts a0 b0 t).flatMap
        (fun i => (stridedStarts 0 N t).flatMap (fun j => tilePairs i j t)))
      = dot m v k N := by
  rw [contrib_flatMap]
  have hinner : ∀ i : Nat,
      contrib m v k ((stridedStarts 0 N t).flatMap (fun j => tilePairs i j t))
        = if i ≤ k ∧ k < i + t then dot m v k N else 0 := by
    intro i
    rw [contrib_flatMap]
    by_cases h : i ≤ k ∧ k < i + t
    · rw [if_pos h]
      have hcol : ∀ j ∈ stridedStarts 0 N t,
          contrib m v k (tilePairs i j t)
            = (fun j => ((List.range t).map
                (fun dj => m k (j + dj) * v (j + dj))).sum) j := by
        intro j _
        rw [contrib_tilePairs, if_pos h]
      rw [List.map_congr_left hcol]
      exact strided_cols_sum m v k N t ht hd
    · rw [if_neg h]
      have hcol : ∀ j ∈ stridedStarts 0 N t,
          contrib m v k (tilePairs i j t) = (fun _ => (0:ℚ)) j := by
        intro j _
        rw [contrib_tilePairs, if_neg h]
      rw [List.map_congr_left hcol, sum_map_zero]
  rw [List.map_congr_left (fun i _ => hinner i)]
  exact strided_window_sum _ ht ha hb

lemma contrib_tiledPairs (m : Mat) (v : Vct) {k N t : Nat} (ht : 1 ≤ t)
    (hd : t ∣ N) (hk : k < N) :
    contrib m v k (tiledPairs N N t) = dot m v k N := by
  rw [tiledPairs]
  exact contrib_rowStrip m v k N t 0 N ht hd (Nat.zero_le _) hk

lemma openmp_tiled_mvm_result (s : MState) {N tile_size k : Nat}
    (ht : 1 ≤ tile_size) (hd : tile_size ∣ N) (hk : k < N) :
    (openmp_tiled_mvm s N N tile_size).result k
      = s.result k + dot s.matrix s.vector k N := by
  rw [openmp_tiled_mvm, accumList_result, contrib_tiledPairs _ _ ht hd hk]

/-! ### Partition arithmetic of the distributed kernels -/

lemma startRow_le_endRow {N size : Nat} (hs : 1 ≤ size) {r : Nat}
    (hr : r < size) : startRow N size r ≤ endRow N size r := by
  rw [startRow, endRow]
  split
  · calc N / size * r ≤ N / size * size :=
      Nat.mul_le_mul (Nat.le_refl _) (by omega)
    _ ≤ N := Nat.div_mul_le_self N size
  · exact Nat.mul_le_mul (Nat.le_refl _) (by omega)

lemma endRow_le {N size : Nat} (hs : 1 ≤ size) {r : Nat} (hr : r < size) :
    endRow N size r ≤ N := by
  rw [endRow]
  split
  · exact Nat.le_refl N
  · calc N / size * (r + 1) ≤ N / size * size :=
      Nat.mul_le_mul (Nat.le_refl _) (by omega)
    _ ≤ N := Nat.div_mul_le_self N size

lemma partition_mem_exists {N size : Nat} (hs : 1 ≤ size) {i : Nat}
    (hi : i < N) :
    ∃ r, r < size ∧ startRow N size r ≤ i ∧ i < endRow N size r := by
  by_cases hq : N / size = 0
  · refine ⟨size - 1, by omega, ?_, ?_⟩
    · rw [startRow, hq]; simp
    · rw [endRow, if_pos rfl]; exact hi
  · have hqpos : 0 < N / size := Nat.pos_of_ne_zero hq
    have hwin := div_window_self (d := i) (t := N / size) hqpos
    by_cases hr : i / (N / size) < size - 1
    · refine ⟨i / (N / size), Nat.lt_of_lt_of_le hr (Nat.sub_le size 1), ?_, ?_⟩
      · rw [startRow, Nat.mul_comm]
        exact hwin.1
      · rw [endRow, if_neg (Nat.ne_of_lt hr)]
        have e : N / size * (i / (N / size) + 1)
            = i / (N / size) * (N / size) + N / size := by ring
        rw [e]
        exact hwin.2
    · refine ⟨size - 1, by omega, ?_, ?_⟩
      · rw [startRow]
        calc N / size * (size - 1)
            ≤ N / size * (i / (N / size)) :=
              Nat.mul_le_mul (Nat.le_refl _) (Nat.le_of_not_lt hr)
          _ = i / (N / size) * (N / size) := Nat.mul_comm _ _
          _ ≤ i := hwin.1
      · rw [endRow, if_pos rfl]; exact hi

lemma partition_mem_unique {N size : Nat} (hs : 1 ≤ size) {i r r' : Nat}
    (h : r < size ∧ startRow N size r ≤ i ∧ i < endRow N size r)
    (h' : r' < size ∧ startRow N size r' ≤ i ∧ i < endRow N size r') :
    r = r' := by
  have aux : ∀ u u' : Nat, u < u' → u' < size →
      startRow N size u' ≤ i → i < endRow N size u → False := by
    intro u u' hlt hu' hstart hend
    have hu : u ≠ size - 1 := by omega
    rw [endRow, if_neg hu] at hend
    rw [startRow] at hstart
    have hm : N / size * (u + 1) ≤ N / size * u' :=
      Nat.mul_le_mul (Nat.le_refl _) (by omega)
    omega
  rcases Nat.lt_trichotomy r r' with hlt | heq | hgt
  · exact (aux r r' hlt h'.1 h'.2.1 h.2.2).elim
  · exact heq
  · exact (aux r' r hgt h.1 h.2.1 h'.2.2).elim

/-! ### The MPI kernels: local results and the all-gather -/

lemma mpi_mvm_local_result (s : MState) (rows cols rank size k : Nat) :
    (mpi_mvm_local s rows cols rank size).result k
      = if startRow rows size rank ≤ k ∧ k < endRow rows size rank
        then dot s.matrix s.vector k cols else s.result k := by
  rw [mpi_mvm_local, rowLoop_result]
  by_cases h : startRow rows size rank ≤ k ∧ k < endRow rows size rank
  · rw [if_pos (mem_rowRange.mpr h), if_pos h]
  · rw [if_neg (fun hm => h (mem_rowRange.mp hm)), if_neg h]

lemma chunk_owner_has_row {N size k : Nat} (hs : 1 ≤ size) (hd : size ∣ N)
    (hk : k < N) :
    k / (N / size) < size
      ∧ startRow N size (k / (N / size)) ≤ k
      ∧ k < endRow N size (k / (N / size)) := by
  have hc : N / size * size = N := Nat.div_mul_cancel hd
  have hcpos : 0 < N / size := by
    rcases Nat.eq_zero_or_pos (N / size) with h0 | h0
    · rw [h0] at hc; omega
    · exact h0
  have hc2 : size * (N / size) = N := by rw [Nat.mul_comm]; exact hc
  refine ⟨?_, ?_, ?_⟩
  · rw [Nat.div_lt_iff_lt_mul hcpos, hc2]
    exact hk
  · rw [startRow, Nat.mul_comm]
    exact (div_window_self (d := k) (t := N / size) hcpos).1
  · by_cases hlast : k / (N / size) = size - 1
    · rw [endRow, if_pos hlast]; exact hk
    · rw [endRow, if_neg hlast]
      have e : N / size * (k / (N / size) + 1)
          = k / (N / size) * (N / size) + N / size := by ring
      rw [e]
      exact (div_window_self (d := k) (t := N / size) hcpos).2

lemma mpi_mvm_result_eq_dot (m : Mat) (v : Vct) (init : Nat → Vct)
    {N size : Nat} (hs : 1 ≤ size) (hd : size ∣ N) (p : Nat) {k : Nat}
    (hk : k < N) :
    (mpi_mvm (fun r => ⟨m, v, init r⟩) N N size p).result k = dot m v k N := by
  have hc : N / size * size = N := Nat.div_mul_cancel hd
  obtain ⟨hrank, hstart, hend⟩ := chunk_owner_has_row hs hd hk
  simp only [mpi_mvm, allgatherResult]
  rw [hc, if_pos hk, mpi_mvm_local_result]
  rw [if_pos ⟨hstart, hend⟩]

lemma mpi_tiled_local_result (s : MState) (rows cols rank size t k : Nat) :
    (mpi_tiled_local s rows cols rank size t).result k
      = s.result k
        + contrib s.matrix s.vector k (mpiTiledPairs rows cols rank size t) := by
  rw [mpi_tiled_local, accumList_result]

lemma mpi_tiled_result_eq_dot (m : Mat) (v : Vct)
    {N size t : Nat} (hs : 1 ≤ size) (hd : size ∣ N) (ht : 1 ≤ t)
    (htd : t ∣ N) (p : Nat) {k : Nat} (hk : k < N) :
    (mpi_tiled_mvm (fun _ => ⟨m, v, fun _ => 0⟩) N N size t p).result k
      = dot m v k N := by
  have hc : N / size * size = N := Nat.div_mul_cancel hd
  obtain ⟨hrank, hstart, hend⟩ := chunk_owner_has_row hs hd hk
  simp only [mpi_tiled_mvm, allgatherResult]
  rw [hc, if_pos hk, mpi_tiled_local_result]
  rw [mpiTiledPairs, contrib_rowStrip m v k N t _ _ ht htd hstart hend]
  simp

/-! ### Membership in the tile iteration lists -/

lemma mem_tilePairs {x y a b t : Nat} :
    (x, y) ∈ tilePairs a b t
      ↔ (a ≤ x ∧ x < a + t) ∧ (b ≤ y ∧ y < b + t) := by
  simp only [tilePairs, List.mem_flatMap, List.mem_map, List.mem_range,
    Prod.mk.injEq]
  constructor
  · rintro ⟨di, hdi, dj, hdj, h1, h2⟩
    omega
  · rintro ⟨⟨h1, h2⟩, h3, h4⟩
    exact ⟨x - a, by omega, y - b, by omega, by omega, by omega⟩

/-! ### The selection loop -/

lemma selectChoice_in_range :
    ∀ (stream : List (Option Int)) (c : Int),
      selectChoice stream = some c → 1 ≤ c ∧ c ≤ 5 := by
  intro stream
  induction stream with
  | nil => intro c h; simp [selectChoice] at h
  | cons a rest ih =>
    intro c h
    cases a with
    | none =>
      simp only [selectChoice] at h
      exact ih c h
    | some d =>
      simp only [selectChoice] at h
      by_cases hd : 1 ≤ d ∧ d ≤ 5
      · rw [if_pos hd] at h
        injection h with h2
        exact h2 ▸ hd
      · rw [if_neg hd] at h
        exact ih c h

/-! ### The claims -/

/-- C1 (`refinement_equivalence`): the claim states that all five kernels,
invoked the way the driver invokes them (on a freshly allocated,
uninitialised result buffer), produce a result matching the Sequential
kernel's within relative error 1e-9 for every row.  The code violates
this: the tiled kernels only accumulate `result[ii] += …` and never zero
`result`, so a residual value in the uninitialised buffer survives into
the output.  At N = 64 with the zero matrix, the zero vector, and residual
value 1 in the buffer, `openmp_tiled_mvm` returns `result[0] = 1` while
`sequential_mvm` returns `result[0] = 0` — off by 1, beyond any 1e-9
tolerance. -/
theorem tiled_uninitialized_mismatch :
    (openmp_tiled_mvm ⟨fun _ _ => 0, fun _ => 0, fun _ => 1⟩ 64 64 16).result 0
        = 1
    ∧ (sequential_mvm ⟨fun _ _ => 0, fun _ => 0, fun _ => 1⟩ 64 64).result 0
        = 0 := by
  constructor
  · rw [openmp_tiled_mvm_result _ (by norm_num) (by norm_num) (by norm_num)]
    simp [dot]
  · rw [sequential_mvm_result]
    simp [dot]

/-- C2 (`refinement_equivalence`): for every N and every process count
`size` that divides N evenly, after `mpi_mvm`'s local computation and the
all-gather with chunk size `N / size`, every rank's result buffer agrees
with the sequential matrix-vector product on all N entries (regardless of
the per-rank initial buffer contents), and hence is identical across
ranks. -/
theorem mpi_allgather_reconstructs (N size : Nat) (m : Mat) (v : Vct)
    (init : Nat → Vct) (res0 : Vct) (hs : 1 ≤ size) (hd : size ∣ N) :
    ∀ p, p < size → ∀ k, k < N →
      (mpi_mvm (fun r => ⟨m, v, init r⟩) N N size p).result k
          = (sequential_mvm ⟨m, v, res0⟩ N N).result k
        ∧ ∀ q, q < size →
            (mpi_mvm (fun r => ⟨m, v, init r⟩) N N size p).result k
              = (mpi_mvm (fun r => ⟨m, v, init r⟩) N N size q).result k := by
  intro p hp k hk
  have hseq : (sequential_mvm ⟨m, v, res0⟩ N N).result k = dot m v k N := by
    rw [sequential_mvm_result, if_pos hk]
  constructor
  · rw [mpi_mvm_result_eq_dot m v init hs hd p hk, hseq]
  · intro q hq
    rw [mpi_mvm_result_eq_dot m v init hs hd p hk,
      mpi_mvm_result_eq_dot m v init hs hd q hk]

/-- Witness for C2 at N = 8, size = 2, the all-ones matrix and vector,
initial buffers 5 on each rank and 7 for the sequential run. -/
theorem mpi_allgather_reconstructs_witness :
    ((1:Nat) ≤ 2 ∧ (2:Nat) ∣ 8)
    ∧ ((mpi_mvm (fun _ => ⟨fun _ _ => 1, fun _ => 1, fun _ => 5⟩) 8 8 2 0).result 3
          = (sequential_mvm ⟨fun _ _ => 1, fun _ => 1, fun _ => 7⟩ 8 8).result 3
        ∧ ∀ q, q < 2 →
            (mpi_mvm (fun _ => ⟨fun _ _ => 1, fun _ => 1, fun _ => 5⟩)
              8 8 2 0).result 3
              = (mpi_mvm (fun _ => ⟨fun _ _ => 1, fun _ => 1, fun _ => 5⟩)
                  8 8 2 q).result 3) :=
  ⟨⟨by norm_num, by norm_num⟩,
    mpi_allgather_reconstructs 8 2 (fun _ _ => 1) (fun _ => 1)
      (fun _ => fun _ => 5) (fun _ => 7) (by norm_num) (by norm_num)
      0 (by norm_num) 3 (by norm_num)⟩

/-- C3 (`invariants`): for every row count N and worker count `size ≥ 1`,
the row ranges `[startRow, endRow)` the distributed kernels assign are
contained in `[0, N)`, and every row `i < N` lies in exactly one rank's
range — no gaps, no overlaps, also when `size` does not divide N. -/
theorem partition_exact (N size : Nat) (hs : 1 ≤ size) :
    (∀ r, r < size →
      startRow N size r ≤ endRow N size r ∧ endRow N size r ≤ N)
    ∧ (∀ i, i < N →
        ∃! r, r < size ∧ startRow N size r ≤ i ∧ i < endRow N size r) := by
  constructor
  · intro r hr
    exact ⟨startRow_le_endRow hs hr, endRow_le hs hr⟩
  · intro i hi
    obtain ⟨r, hr⟩ := partition_mem_exists hs hi
    exact ⟨r, hr, fun y hy => partition_mem_unique hs hy hr⟩

/-- Witness for C3 at N = 10, size = 3 (a case where `size` does not
divide N: ranks get rows [0,3), [3,6), [6,10)). -/
theorem partition_exact_witness :
    (1:Nat) ≤ 3
    ∧ ((∀ r, r < 3 →
        startRow 10 3 r ≤ endRow 10 3 r ∧ endRow 10 3 r ≤ 10)
      ∧ (∀ i, i < 10 →
          ∃! r, r < 3 ∧ startRow 10 3 r ≤ i ∧ i < endRow 10 3 r)) :=
  ⟨by norm_num, partition_exact 10 3 (by norm_num)⟩

/-- C4 (`safety`): the claim states the tiled kernels only touch indices
in [0, N).  The code violates it: the tile loops run whole 16-wide tiles
past `end`, so `mpi_tiled_mvm` reads and writes out of bounds whenever a
rank's range is not a multiple of 16 wide.  Concretely at N = 80 with 3
ranks, rank 2 gets rows [52, 80), its second row-tile starts at 68 and
runs to 83, and the loop nest touches `matrix[83][0]` and `result[83]` —
beyond index 79, contradicting the claim's N = 80 scenario (note 80 *is*
divisible by 16, so `openmp_tiled_mvm` alone stays in bounds there; the
violation needs N not divisible by 16, e.g. N = 17, or a rank range not
aligned to 16 as here). -/
theorem mpi_tiled_out_of_bounds :
    ((83, 0) : Nat × Nat) ∈ mpiTiledPairs 80 80 2 3 16 ∧ ¬(83 < 80) := by
  constructor
  · have hstart : startRow 80 3 2 = 52 := by norm_num [startRow]
    have hend : endRow 80 3 2 = 80 := by norm_num [endRow]
    rw [mpiTiledPairs, hstart, hend]
    rw [List.mem_flatMap]
    refine ⟨68, ?_, ?_⟩
    · rw [mem_stridedStarts]
      exact ⟨1, by norm_num, by norm_num⟩
    · rw [List.mem_flatMap]
      refine ⟨0, ?_, ?_⟩
      · rw [mem_stridedStarts]
        exact ⟨0, by norm_num, by norm_num⟩
      · exact mem_tilePairs.mpr ⟨⟨by norm_num, by norm_num⟩,
          by norm_num, by norm_num⟩
  · decide

/-- C5 (`functional_correctness`): `openmp_tiled_mvm` accumulates onto the
caller's result buffer instead of overwriting it: for every N divisible by
the tile edge 16 and every row `i < N`, the final `result[i]` is the
initial `result[i]` plus the dot product of row i with the vector — for
an arbitrary initial buffer `res`, which is exactly what the driver
passes (`allocate_vector` returns uninitialised `malloc` memory that
`run_programs` hands to the kernel unwritten). -/
theorem openmp_tiled_accumulates (N : Nat) (m : Mat) (v : Vct) (res : Vct)
    (i : Nat) (hd : (16:Nat) ∣ N) (hi : i < N) :
    (openmp_tiled_mvm ⟨m, v, res⟩ N N 16).result i = res i + dot m v i N := by
  rw [openmp_tiled_mvm_result _ (by norm_num) hd hi]

/-- Witness for C5 at N = 16 with the all-ones matrix and vector and
initial buffer value 2. -/
theorem openmp_tiled_accumulates_witness :
    ((16:Nat) ∣ 16 ∧ (0:Nat) < 16)
    ∧ (openmp_tiled_mvm ⟨fun _ _ => 1, fun _ => 1, fun _ => 2⟩
        16 16 16).result 0
      = 2 + dot (fun _ _ => 1) (fun _ => 1) 0 16 :=
  ⟨⟨by norm_num, by norm_num⟩,
    openmp_tiled_accumulates 16 (fun _ _ => 1) (fun _ => 1) (fun _ => 2) 0
      (by norm_num) (by norm_num)⟩

/-- C6 (amended, `functional_correctness`): every value `fill_random`
writes into the matrix and the vector lies in the closed interval [0, 1]:
`rand()` returns values in `[0, RAND_MAX]`, so `(double)rand() / RAND_MAX`
is at least 0 and at most 1 — and it reaches 1 exactly when `rand()`
returns `RAND_MAX`, so the claimed strict bound `< 1` does not hold (see
the counterexample). -/
theorem fill_random_range (rng : Nat → Nat) (randMax rows cols i j : Nat)
    (hmax : 1 ≤ randMax) (hrng : ∀ n, rng n ≤ randMax) :
    (0 ≤ (fill_random rng randMax rows cols).1 i j
      ∧ (fill_random rng randMax rows cols).1 i j ≤ 1)
    ∧ (0 ≤ (fill_random rng randMax rows cols).2 i
      ∧ (fill_random rng randMax rows cols).2 i ≤ 1) := by
  have hpos : (0:ℚ) < (randMax : ℚ) := by
    exact_mod_cast Nat.lt_of_lt_of_le Nat.zero_lt_one hmax
  have key : ∀ n : Nat,
      0 ≤ ((rng n : ℚ) / (randMax : ℚ))
        ∧ ((rng n : ℚ) / (randMax : ℚ)) ≤ 1 := by
    intro n
    constructor
    · exact div_nonneg (Nat.cast_nonneg _) (le_of_lt hpos)
    · rw [div_le_one hpos]
      exact_mod_cast hrng n
  exact ⟨key _, key _⟩

/-- Witness for C6 (amended) with the all-zero random stream and
`RAND_MAX = 32767`. -/
theorem fill_random_range_witness :
    (1:Nat) ≤ 32767
    ∧ ((0 ≤ (fill_random (fun _ => 0) 32767 4 4).1 0 0
        ∧ (fill_random (fun _ => 0) 32767 4 4).1 0 0 ≤ 1)
      ∧ (0 ≤ (fill_random (fun _ => 0) 32767 4 4).2 0
        ∧ (fill_random (fun _ => 0) 32767 4 4).2 0 ≤ 1)) :=
  ⟨by norm_num,
    fill_random_range (fun _ => 0) 32767 4 4 0 0 (by norm_num)
      (fun _ => Nat.zero_le _)⟩

/-- C6 counterexample: when `rand()` returns `RAND_MAX` (here 32767, the
minimum the C standard allows), the written value is exactly
`RAND_MAX / RAND_MAX = 1`, which is not strictly below 1 — refuting the
claimed half-open range [0, 1). -/
theorem fill_random_hits_one :
    (fill_random (fun _ => 32767) 32767 4 4).1 0 0 = 1
    ∧ ¬((fill_random (fun _ => 32767) 32767 4 4).1 0 0 < 1) := by
  have hnz : ((32767:Nat):ℚ) ≠ 0 := by norm_num
  have h : (fill_random (fun _ => 32767) 32767 4 4).1 0 0 = 1 := div_self hnz
  exact ⟨h, by rw [h]; exact lt_irrefl 1⟩

/-- C7 (`invariants`): for every N divisible by the tile edge 16, every
index pair `(i, j)` with `i, j < N` is visited by exactly one
(row-tile, column-tile) iteration of `openmp_tiled_mvm`'s loop nest. -/
theorem tiling_exactly_once (N i j : Nat) (hd : (16:Nat) ∣ N) (hi : i < N)
    (hj : j < N) :
    ∃! ab : Nat × Nat,
      ab ∈ tileIters N 16 ∧ (i, j) ∈ tilePairs ab.1 ab.2 16 := by
  have ht : (1:Nat) ≤ 16 := by norm_num
  have hcount : (N - 0 + 16 - 1) / 16 = N / 16 := by
    rw [show N - 0 + 16 - 1 = N + 16 - 1 by omega, ceil_div_of_dvd ht hd]
  have hmemS : ∀ x : Nat,
      x ∈ stridedStarts 0 N 16 ↔ ∃ q, q < N / 16 ∧ x = q * 16 := by
    intro x
    rw [mem_stridedStarts, hcount]
    constructor
    · rintro ⟨q, hq, rfl⟩; exact ⟨q, hq, by omega⟩
    · rintro ⟨q, hq, rfl⟩; exact ⟨q, hq, by omega⟩
  have hmemI : ∀ ab : Nat × Nat,
      ab ∈ tileIters N 16
        ↔ ab.1 ∈ stridedStarts 0 N 16 ∧ ab.2 ∈ stridedStarts 0 N 16 := by
    intro ab
    simp only [tileIters, List.mem_flatMap, List.mem_map]
    constructor
    · rintro ⟨a, ha, b, hb, h⟩
      rw [← h]
      exact ⟨ha, hb⟩
    · rintro ⟨h1, h2⟩
      exact ⟨ab.1, h1, ab.2, h2, by rw [Prod.mk.eta]⟩
  have hwin_i := div_window_self (d := i) (t := 16) ht
  have hwin_j := div_window_self (d := j) (t := 16) ht
  refine ⟨(i / 16 * 16, j / 16 * 16), ⟨?_, ?_⟩, ?_⟩
  · rw [hmemI]
    exact ⟨(hmemS _).mpr ⟨i / 16, Nat.div_lt_div_of_lt_of_dvd hd hi, rfl⟩,
      (hmemS _).mpr ⟨j / 16, Nat.div_lt_div_of_lt_of_dvd hd hj, rfl⟩⟩
  · exact mem_tilePairs.mpr ⟨⟨hwin_i.1, hwin_i.2⟩, hwin_j.1, hwin_j.2⟩
  · rintro ⟨a, b⟩ ⟨hmem, hpair⟩
    rw [hmemI] at hmem
    obtain ⟨qa, hqa, rfl⟩ := (hmemS a).mp hmem.1
    obtain ⟨qb, hqb, rfl⟩ := (hmemS b).mp hmem.2
    obtain ⟨⟨ha1, ha2⟩, hb1, hb2⟩ := mem_tilePairs.mp hpair
    have ha : qa = (i - 0) / 16 := window_eq_div ht (by omega) (by omega)
    have hb : qb = (j - 0) / 16 := window_eq_div ht (by omega) (by omega)
    rw [show (i - 0) / 16 = i / 16 by omega] at ha
    rw [show (j - 0) / 16 = j / 16 by omega] at hb
    rw [ha, hb]

/-- Witness for C7 at N = 32, (i, j) = (5, 20). -/
theorem tiling_exactly_once_witness :
    ((16:Nat) ∣ 32 ∧ (5:Nat) < 32 ∧ (20:Nat) < 32)
    ∧ ∃! ab : Nat × Nat,
        ab ∈ tileIters 32 16 ∧ ((5:Nat), (20:Nat)) ∈ tilePairs ab.1 ab.2 16 :=
  ⟨⟨by norm_num, by norm_num, by norm_num⟩,
    tiling_exactly_once 32 5 20 (by norm_num) (by norm_num) (by norm_num)⟩

/-- C8 (`frame_effect`): each of the five kernels leaves the matrix and
the vector unchanged — only the result buffer is written.  For the MPI
kernels this holds on every rank of the collective. -/
theorem kernels_preserve_inputs (s : MState) (states : Nat → MState)
    (rows cols size tile_size p : Nat) :
    ((sequential_mvm s rows cols).matrix = s.matrix
      ∧ (sequential_mvm s rows cols).vector = s.vector)
    ∧ ((openmp_mvm s rows cols).matrix = s.matrix
      ∧ (openmp_mvm s rows cols).vector = s.vector)
    ∧ ((mpi_mvm states rows cols size p).matrix = (states p).matrix
      ∧ (mpi_mvm states rows cols size p).vector = (states p).vector)
    ∧ ((openmp_tiled_mvm s rows cols tile_size).matrix = s.matrix
      ∧ (openmp_tiled_mvm s rows cols tile_size).vector = s.vector)
    ∧ ((mpi_tiled_mvm states rows cols size tile_size p).matrix
          = (states p).matrix
      ∧ (mpi_tiled_mvm states rows cols size tile_size p).vector
          = (states p).vector) := by
  simp [sequential_mvm, openmp_mvm, mpi_mvm, openmp_tiled_mvm, mpi_tiled_mvm,
    mpi_mvm_local, mpi_tiled_local]

/-- C9 (`error_handling`): the selection loop accepts only an integer in
[1, 5]: whenever it accepts `c`, then `1 ≤ c ≤ 5`, and the program then
benchmarks exactly variant `c`; a non-numeric attempt (`none`) or an
out-of-range integer is skipped and the loop moves to the next attempt
(the re-prompt), never failing. -/
theorem choice_validation (stream : List (Option Int)) (c : Int)
    (h : selectChoice stream = some c) :
    (1 ≤ c ∧ c ≤ 5)
    ∧ (∀ (plan : Nat → Option Mat × Option Vct × Option Vct) (t : Nat → ℚ),
        mainOutput stream plan t = some (benchRun c.toNat plan t))
    ∧ (∀ rest : List (Option Int),
        selectChoice (none :: rest) = selectChoice rest)
    ∧ (∀ (d : Int) (rest : List (Option Int)), ¬(1 ≤ d ∧ d ≤ 5) →
        selectChoice (some d :: rest) = selectChoice rest) := by
  refine ⟨selectChoice_in_range stream c h, ?_, ?_, ?_⟩
  · intro plan t
    rw [mainOutput, h]
    rfl
  · intro rest
    rfl
  · intro d rest hbad
    exact if_neg hbad

/-- Witness for C9 on the input stream 9 (out of range), a non-numeric
token, then 3 (accepted). -/
theorem choice_validation_witness :
    selectChoice [some 9, none, some 3] = some 3
    ∧ ((1 ≤ (3:Int) ∧ (3:Int) ≤ 5)
      ∧ (∀ (plan : Nat → Option Mat × Option Vct × Option Vct) (t : Nat → ℚ),
          mainOutput [some 9, none, some 3] plan t
            = some (benchRun (3:Int).toNat plan t))
      ∧ (∀ rest : List (Option Int),
          selectChoice (none :: rest) = selectChoice rest)
      ∧ (∀ (d : Int) (rest : List (Option Int)), ¬(1 ≤ d ∧ d ≤ 5) →
          selectChoice (some d :: rest) = selectChoice rest)) :=
  ⟨by decide, choice_validation [some 9, none, some 3] 3 (by decide)⟩

/-- C10 (`error_handling`): if any of the three allocations (matrix,
vector, result) fails at a size, `run_programs` prints the failure
message and emits no timing record for that size, and the driver loop's
record stream is exactly the concatenation of the other sizes' records —
the run is not aborted. -/
theorem allocation_failure_skips_size (choice N0 : Nat)
    (plan : Nat → Option Mat × Option Vct × Option Vct) (t : Nat → ℚ)
    (hfail : (plan N0).1 = none ∨ (plan N0).2.1 = none
      ∨ (plan N0).2.2 = none) :
    run_programs choice N0 (plan N0).1 (plan N0).2.1 (plan N0).2.2 (t N0)
        = (["Memory allocation failed!"], [])
    ∧ (benchRun choice plan t).2
        = (benchSizes.map (fun N => if N = N0 then [] else
            (run_programs choice N (plan N).1 (plan N).2.1 (plan N).2.2
              (t N)).2)).flatten := by
  have hrp : run_programs choice N0 (plan N0).1 (plan N0).2.1 (plan N0).2.2
      (t N0) = (["Memory allocation failed!"], []) := by
    rcases hfail with h | h | h
    · rw [h]; rfl
    · cases hm : (plan N0).1 with
      | none => rfl
      | some m => rw [h]; rfl
    · cases hm : (plan N0).1 with
      | none => rfl
      | some m =>
        cases hv : (plan N0).2.1 with
        | none => rfl
        | some v => rw [h]; rfl
  refine ⟨hrp, ?_⟩
  simp only [benchRun, List.map_map]
  congr 1
  apply List.map_congr_left
  intro N _
  by_cases hN : N = N0
  · subst hN
    simp [Function.comp_def, hrp]
  · simp [Function.comp_def, hN]

/-- Witness for C10 with every allocation failing and choice 1. -/
theorem allocation_failure_skips_size_witness :
    (none : Option Mat) = none
    ∧ run_programs 1 64 none none none 0 = (["Memory allocation failed!"], []) :=
  ⟨rfl,
    (allocation_failure_skips_size 1 64 (fun _ => (none, none, none))
      (fun _ => 0) (Or.inl rfl)).1⟩

end MXV
